import Mathlib

/-!
Shallow embedding of `graph.py` (repository `mosimanj/directed_map`).

Python dictionaries are modelled as insertion-ordered association lists
(`dictLookup` finds the entry of a key, `dictSet` is `d[k] = v`,
`dictDel` is `del d[k]`).  Python `set`s of strings are modelled as
duplicate-free lists (`setAdd`).  The out-of-scope containers
(`Stack`, `Queue`, `PriorityQueue` from `ds_library`) are modelled from
the spec's contracts in section 6.  Exceptions are modelled with `Except`.
-/

namespace DirectedMap

/-- Failure modes of the Python code.  Every `raise GraphException(msg)` site
in `graph.py` is mapped by its message: the "no vertex/edge ..." messages
to `notFound`, the "weight required" and "requires a weighted graph"
messages to `invalidArgument`.  `keyError` models a Python `KeyError`
escaping from a failed dictionary subscript `self._vertices[vert_id]`. -/
inductive GraphErr where
  | notFound
  | invalidArgument
  | keyError
deriving DecidableEq, Repr

/-- Python dict lookup `d[k]` / `d.get(k)`: the value stored at key `k`. -/
def dictLookup {β : Type} : List (String × β) → String → Option β
  | [], _ => none
  | (k', v) :: rest, k => if k' = k then some v else dictLookup rest k

/-- Python membership test `k in d`. -/
def dictContains {β : Type} (l : List (String × β)) (k : String) : Bool :=
  (dictLookup l k).isSome

/-- Python dict assignment `d[k] = v`: replaces the value at `k` keeping the
key's position if present, otherwise appends the new entry at the end
(insertion order). -/
def dictSet {β : Type} : List (String × β) → String → β → List (String × β)
  | [], k, v => [(k, v)]
  | (k', v') :: rest, k, v =>
      if k' = k then (k, v) :: rest else (k', v') :: dictSet rest k v

/-- Python dict deletion `del d[k]`: removes the entry of key `k`. -/
def dictDel {β : Type} (l : List (String × β)) (k : String) : List (String × β) :=
  l.filter (fun p => p.1 ≠ k)

/-- Python `set.add`: membership-guarded insertion into a set of strings. -/
def setAdd (s : List String) (x : String) : List String :=
  if x ∈ s then s else x :: s

/-- Python truthiness of the `weight: int = None` parameter: `not weight`
holds exactly for `None` and `0`. -/
def isFalsy : Option Int → Bool
  | none => true
  | some n => n == 0

/-- Python truthiness of the `target_id: str = None` parameter: falsy
exactly for `None` and the empty string. -/
def pyTruthyStr : Option String → Bool
  | none => false
  | some s => s ≠ ""

/-- Class `Vertex` of `graph.py`: identifier, payload `value`, and the
outbound adjacency dict `adj_dict` (neighbour identifier to weight;
the weight is Python `None` in unweighted graphs). -/
structure Vertex (α : Type) where
  id : String
  value : α
  adj_dict : List (String × Option Int)
deriving DecidableEq

/-- Class `DirectedGraph` of `graph.py`: `_vertices` dict, `_size`
counter and the `_weighted` flag fixed at construction. -/
structure DirectedGraph (α : Type) where
  vertices : List (String × Vertex α)
  size : Int
  weighted : Bool
deriving DecidableEq

variable {α : Type}

/-- `DirectedGraph.__init__`. -/
def emptyGraph (α : Type) (weighted : Bool) : DirectedGraph α :=
  { vertices := [], size := 0, weighted := weighted }

/-- `DirectedGraph.add_vertex`: replace the value (keeping the old
`adj_dict`) if the identifier exists, else insert a fresh vertex with empty
adjacency and increment `_size`. -/
def add_vertex (g : DirectedGraph α) (identifier : String) (value : α) :
    DirectedGraph α :=
  match dictLookup g.vertices identifier with
  | some old_vert =>
      { g with vertices :=
          dictSet g.vertices identifier ⟨identifier, value, old_vert.adj_dict⟩ }
  | none =>
      { g with
        vertices := dictSet g.vertices identifier ⟨identifier, value, []⟩
        size := g.size + 1 }

/-- Body of the inbound-edge removal loop of `remove_vertex`: one vertex
with `identifier` deleted from its adjacency dict (the Python loop guards
the `del` with a membership test, which equals the unguarded delete). -/
def removeInbound (identifier : String) (vx : Vertex α) : Vertex α :=
  ⟨vx.id, vx.value, dictDel vx.adj_dict identifier⟩

/-- `DirectedGraph.remove_vertex`: raise if absent; otherwise delete the
identifier from every vertex's adjacency dict via `removeInbound`, then
delete the vertex entry and decrement `_size`. -/
def remove_vertex (g : DirectedGraph α) (identifier : String) :
    Except GraphErr (DirectedGraph α) :=
  if dictContains g.vertices identifier = false then .error .notFound
  else
    let cleaned := g.vertices.map fun p => (p.1, removeInbound identifier p.2)
    .ok { g with vertices := dictDel cleaned identifier, size := g.size - 1 }

/-- `DirectedGraph.add_edge`: check source then destination existence; if
the edge already exists do nothing; if the graph is weighted and the weight
is falsy raise; otherwise store the weight (or `None` when unweighted) in
the source's adjacency dict. -/
def add_edge (g : DirectedGraph α) (source_id dest_id : String)
    (weight : Option Int) : Except GraphErr (DirectedGraph α) :=
  match dictLookup g.vertices source_id with
  | none => .error .notFound
  | some source_vert =>
    if dictContains g.vertices dest_id = false then .error .notFound
    else if dictContains source_vert.adj_dict dest_id then .ok g
    else if g.weighted && isFalsy weight then .error .invalidArgument
    else
      let source_vert' : Vertex α :=
        { source_vert with
          adj_dict := dictSet source_vert.adj_dict dest_id
            (if g.weighted then weight else none) }
      .ok { g with vertices := dictSet g.vertices source_id source_vert' }

/-- `DirectedGraph.remove_edge`. -/
def remove_edge (g : DirectedGraph α) (source_id dest_id : String) :
    Except GraphErr (DirectedGraph α) :=
  match dictLookup g.vertices source_id with
  | some source_vert =>
      if dictContains source_vert.adj_dict dest_id then
        let source_vert' : Vertex α :=
          { source_vert with adj_dict := dictDel source_vert.adj_dict dest_id }
        .ok { g with vertices := dictSet g.vertices source_id source_vert' }
      else .error .notFound
  | none => .error .notFound

/-- `DirectedGraph.edge_exists`. -/
def edge_exists (g : DirectedGraph α) (source_id dest_id : String) : Bool :=
  match dictLookup g.vertices source_id with
  | some source_vert => dictContains source_vert.adj_dict dest_id
  | none => false

/-- `DirectedGraph.vertex_exists`. -/
def vertex_exists (g : DirectedGraph α) (identifier : String) : Bool :=
  dictContains g.vertices identifier

/-- Identifiers currently in the graph (the keys of `_vertices`). -/
def vertKeys (g : DirectedGraph α) : List String := g.vertices.map Prod.fst

/-- Number of graph vertices not yet in the visited set; the primary
termination measure of the three search loops. -/
def unvisitedCount (g : DirectedGraph α) (visited : List String) : Nat :=
  ((vertKeys g).filter (fun k => decide (k ∉ visited))).length

theorem dictLookup_some_mem {β : Type} {l : List (String × β)} {k : String}
    {v : β} (h : dictLookup l k = some v) : (k, v) ∈ l := by
  induction l with
  | nil => simp [dictLookup] at h
  | cons p rest ih =>
      obtain ⟨k', v'⟩ := p
      simp only [dictLookup] at h
      by_cases hk : k' = k
      · rw [if_pos hk] at h
        subst hk
        cases h
        exact List.mem_cons_self _ _
      · rw [if_neg hk] at h
        exact List.mem_cons_of_mem _ (ih h)

theorem dictLookup_some_key_mem {β : Type} {l : List (String × β)}
    {k : String} {v : β} (h : dictLookup l k = some v) :
    k ∈ l.map Prod.fst :=
  List.mem_map.mpr ⟨(k, v), dictLookup_some_mem h, rfl⟩

theorem length_filter_le_of_imp {l : List String} {p q : String → Bool}
    (h : ∀ x, p x = true → q x = true) :
    (l.filter p).length ≤ (l.filter q).length := by
  induction l with
  | nil => simp
  | cons a t ih =>
      simp only [List.filter]
      cases hp : p a
      · cases hq : q a
        · exact ih
        · exact Nat.le_succ_of_le ih
      · rw [h a hp]
        exact Nat.succ_le_succ ih

theorem length_filter_cons_not_mem_lt (l visited : List String) (v : String)
    (hv : v ∈ l) (hnv : v ∉ visited) :
    (l.filter (fun k => decide (k ∉ v :: visited))).length <
      (l.filter (fun k => decide (k ∉ visited))).length := by
  induction l with
  | nil => cases hv
  | cons a t ih =>
      simp only [List.filter]
      by_cases hav : a = v
      · subst hav
        have h1 : (decide (a ∉ a :: visited)) = false := by
          simp [List.mem_cons]
        have h2 : (decide (a ∉ visited)) = true := by simpa using hnv
        rw [h1, h2]
        have hle :
            (t.filter (fun k => decide (k ∉ a :: visited))).length ≤
              (t.filter (fun k => decide (k ∉ visited))).length := by
          apply length_filter_le_of_imp
          intro x hx
          simp only [decide_eq_true_eq] at hx ⊢
          exact fun hmem => hx (List.mem_cons_of_mem _ hmem)
        exact Nat.lt_succ_of_le hle
      · have hvt : v ∈ t := by
          rcases List.mem_cons.mp hv with h | h
          · exact absurd h.symm hav
          · exact h
        have heq : (decide (a ∉ v :: visited)) = (decide (a ∉ visited)) := by
          by_cases ham : a ∈ visited
          · simp [ham]
          · simp [ham, List.mem_cons, hav]
        rw [heq]
        cases hcase : (decide (a ∉ visited))
        · exact ih hvt
        · exact Nat.succ_lt_succ (ih hvt)

theorem unvisitedCount_lt (g : DirectedGraph α) (visited : List String)
    (v : String) (hv : v ∈ vertKeys g) (hnv : v ∉ visited) :
    unvisitedCount g (v :: visited) < unvisitedCount g visited :=
  length_filter_cons_not_mem_lt (vertKeys g) visited v hv hnv

/-- Loop of `depth_first_search`.  The stack is a list with its top first;
the Python `for vertex in adj_dict: stack.push(vertex)` pushes the
adjacency keys in insertion order, so they pop in reverse order. -/
def dfsLoop (g : DirectedGraph α) (target_id : String)
    (stack visited : List String) : Option Bool :=
  match stack with
  | [] => some false
  | vert_id :: rest =>
    if hvis : vert_id ∈ visited then dfsLoop g target_id rest visited
    else if vert_id = target_id then some true
    else
      match hv : dictLookup g.vertices vert_id with
      | none => none
      | some v =>
          dfsLoop g target_id ((v.adj_dict.map Prod.fst).reverse ++ rest)
            (vert_id :: visited)
termination_by (unvisitedCount g visited, stack.length)
decreasing_by
  · apply Prod.Lex.right
    simp
  · exact Prod.Lex.left _ _
      (unvisitedCount_lt g visited vert_id (dictLookup_some_key_mem hv) hvis)

/-- `DirectedGraph.depth_first_search`: check both endpoints, then run the
stack loop starting from the source with an empty visited set. -/
def depth_first_search (g : DirectedGraph α) (source_id target_id : String) :
    Except GraphErr Bool :=
  if dictContains g.vertices source_id = false then .error .notFound
  else if dictContains g.vertices target_id = false then .error .notFound
  else
    match dfsLoop g target_id [source_id] [] with
    | some b => .ok b
    | none => .error .keyError

theorem dictLookup_eq_none_iff {β : Type} {l : List (String × β)}
    {k : String} : dictLookup l k = none ↔ k ∉ l.map Prod.fst := by
  induction l with
  | nil => simp [dictLookup]
  | cons p rest ih =>
      obtain ⟨k', v'⟩ := p
      simp only [dictLookup, List.map_cons, List.mem_cons]
      by_cases hk : k' = k
      · subst hk
        simp
      · rw [if_neg hk, ih]
        constructor
        · intro h hh
          rcases hh with hh | hh
          · exact hk hh.symm
          · exact h hh
        · intro h hh
          exact h (Or.inr hh)

theorem dictContains_false_iff {β : Type} {l : List (String × β)}
    {k : String} : dictContains l k = false ↔ k ∉ l.map Prod.fst := by
  unfold dictContains
  constructor
  · intro h
    apply dictLookup_eq_none_iff.mp
    cases hl : dictLookup l k
    · rfl
    · rw [hl] at h
      simp at h
  · intro h
    rw [dictLookup_eq_none_iff.mpr h]
    rfl

theorem dictContains_true_iff {β : Type} {l : List (String × β)}
    {k : String} : dictContains l k = true ↔ k ∈ l.map Prod.fst := by
  rcases h : dictContains l k with _ | _
  · simp only [Bool.false_eq_true, false_iff]
    exact dictContains_false_iff.mp h
  · simp only [true_iff]
    by_contra hmem
    rw [← dictLookup_eq_none_iff] at hmem
    simp [dictContains, hmem] at h

/-- Number of queue entries that are already in the visited set; the
secondary termination measure of the BFS loop (dequeuing an
already-visited entry enqueues only unvisited identifiers). -/
def visitedInQueue (queue visited : List String) : Nat :=
  (queue.filter (fun x => decide (x ∈ visited))).length

theorem length_filter_mem_of_filter_not_mem (l visited : List String) :
    ((l.filter (fun x => decide (x ∉ visited))).filter
      (fun x => decide (x ∈ visited))).length = 0 := by
  simp only [List.length_eq_zero, List.filter_eq_nil_iff]
  intro a ha
  have := (List.mem_filter.mp ha).2
  simp only [decide_eq_true_eq] at this ⊢
  exact this

/-- Loop of `breadth_first_search`.  The queue is a list with its front
first (`enqueue` appends at the back); the target check happens on
dequeue before the vertex is added to the visited set, and adjacent
identifiers are enqueued only when not yet visited. -/
def bfsLoop (g : DirectedGraph α) (target_id : Option String)
    (queue visited : List String) (target_found : Bool) :
    Option (List String × Bool) :=
  match queue with
  | [] => some (visited, target_found)
  | vert_id :: rest =>
    let found' := target_found ||
      (pyTruthyStr target_id && (some vert_id == target_id))
    let visited' := setAdd visited vert_id
    match hv : dictLookup g.vertices vert_id with
    | none => none
    | some v =>
        bfsLoop g target_id
          (rest ++ (v.adj_dict.map Prod.fst).filter
            (fun x => decide (x ∉ visited')))
          visited' found'
termination_by (unvisitedCount g visited, visitedInQueue queue visited)
decreasing_by
  by_cases hmem : vert_id ∈ visited
  · have hvis : setAdd visited vert_id = visited := by simp [setAdd, hmem]
    simp only [hvis]
    apply Prod.Lex.right
    have h0 := length_filter_mem_of_filter_not_mem
      (v.adj_dict.map Prod.fst) visited
    have hd : decide (vert_id ∈ visited) = true := by simpa using hmem
    simp only [visitedInQueue, List.filter_append, List.length_append,
      List.filter_cons, hd, if_true, List.length_cons] at h0 ⊢
    omega
  · have hvis : setAdd visited vert_id = vert_id :: visited := by
      simp [setAdd, hmem]
    simp only [hvis]
    exact Prod.Lex.left _ _
      (unvisitedCount_lt g visited vert_id (dictLookup_some_key_mem hv) hmem)

/-- Result of `breadth_first_search`: a bare list when no (truthy) target
was supplied, and a `(found, list)` pair otherwise. -/
inductive BfsResult where
  | plain (reachable : List String)
  | withTarget (found : Bool) (reachable : List String)
deriving DecidableEq

/-- `DirectedGraph.breadth_first_search`: check the source, check a
truthy target, run the queue loop, and return either the bare reachable
list or the `(found, list)` pair depending on target truthiness.  The
Python code builds the returned list by iterating the visited set, whose
order is arbitrary; the model returns the visited list in insertion
order (one arbitrary-order refinement), and the claims about the result
only use membership. -/
def breadth_first_search (g : DirectedGraph α) (source_id : String)
    (target_id : Option String) : Except GraphErr BfsResult :=
  if dictContains g.vertices source_id = false then .error .notFound
  else if pyTruthyStr target_id &&
      (dictContains g.vertices (target_id.getD "") = false) then
    .error .notFound
  else
    match bfsLoop g target_id [source_id] [] false with
    | none => .error .keyError
    | some (visited, target_found) =>
        if pyTruthyStr target_id then .ok (.withTarget target_found visited)
        else .ok (.plain visited)

/-- Instrumented copy of the BFS queue loop (no target bookkeeping: the
queue and visited evolution of `bfsLoop` do not depend on the target).
`dup_free` stays `true` while every queue state reached so far is free of
duplicate identifiers; `no_vis_enq` stays `true` while no identifier has
been enqueued at a moment it was already in the visited set. -/
def bfsLoopAudit (g : DirectedGraph α) (queue visited : List String)
    (dup_free no_vis_enq : Bool) : Option (List String × Bool × Bool) :=
  match queue with
  | [] => some (visited, dup_free, no_vis_enq)
  | vert_id :: rest =>
    let visited' := setAdd visited vert_id
    match hv : dictLookup g.vertices vert_id with
    | none => none
    | some v =>
        let enqueued := (v.adj_dict.map Prod.fst).filter
          (fun x => decide (x ∉ visited'))
        bfsLoopAudit g (rest ++ enqueued) visited'
          (dup_free && (rest ++ enqueued).Nodup)
          (no_vis_enq && enqueued.all (fun x => decide (x ∉ visited')))
termination_by (unvisitedCount g visited, visitedInQueue queue visited)
decreasing_by
  by_cases hmem : vert_id ∈ visited
  · have hvis : setAdd visited vert_id = visited := by simp [setAdd, hmem]
    simp only [hvis]
    apply Prod.Lex.right
    have h0 := length_filter_mem_of_filter_not_mem
      (v.adj_dict.map Prod.fst) visited
    have hd : decide (vert_id ∈ visited) = true := by simpa using hmem
    simp only [visitedInQueue, List.filter_append, List.length_append,
      List.filter_cons, hd, if_true, List.length_cons] at h0 ⊢
    omega
  · have hvis : setAdd visited vert_id = vert_id :: visited := by
      simp [setAdd, hmem]
    simp only [hvis]
    exact Prod.Lex.left _ _
      (unvisitedCount_lt g visited vert_id (dictLookup_some_key_mem hv) hmem)

/-- Whether some intermediate queue of the BFS run from `s` held two
entries for the same identifier (`some false` exactly when a duplicate
occurred; `none` on a `KeyError`). -/
def bfs_queue_dup_free (g : DirectedGraph α) (s : String) : Option Bool :=
  (bfsLoopAudit g [s] [] true true).map (fun r => r.2.1)

/-- Whether the BFS run from `s` ever enqueued an identifier that was
already in the visited set (`some true` when that never happened). -/
def bfs_no_visited_enqueue (g : DirectedGraph α) (s : String) : Option Bool :=
  (bfsLoopAudit g [s] [] true true).map (fun r => r.2.2)

/-- Minimum-priority container of `ds_library`, modelled from the spec:
a list of `(priority, item)` entries; `enqueue` appends, `dequeue`
removes and returns an entry with the smallest priority (the earliest
enqueued one among ties — deterministic), per the contract in section 6
of the spec. -/
def pqDequeue : List (Int × String) → Option ((Int × String) × List (Int × String))
  | [] => none
  | x :: xs =>
    match pqDequeue xs with
    | none => some (x, [])
    | some (m, rest) => if x.1 ≤ m.1 then some (x, xs) else some (m, x :: rest)

theorem pqDequeue_none_iff {l : List (Int × String)} :
    pqDequeue l = none ↔ l = [] := by
  cases l with
  | nil => simp [pqDequeue]
  | cons a xs =>
      rcases hxs : pqDequeue xs with _ | ⟨m, rest'⟩
      · simp [pqDequeue, hxs]
      · by_cases hle : a.1 ≤ m.1 <;> simp [pqDequeue, hxs, hle]

theorem pqDequeue_length {l : List (Int × String)} {x : Int × String}
    {rest : List (Int × String)} (h : pqDequeue l = some (x, rest)) :
    rest.length + 1 = l.length := by
  induction l generalizing x rest with
  | nil => simp [pqDequeue] at h
  | cons a xs ih =>
      rcases hxs : pqDequeue xs with _ | ⟨m, rest'⟩
      · simp only [pqDequeue, hxs] at h
        cases h
        rw [pqDequeue_none_iff.mp hxs]
        rfl
      · simp only [pqDequeue, hxs] at h
        by_cases hle : a.1 ≤ m.1
        · rw [if_pos hle] at h
          cases h
          rfl
        · rw [if_neg hle] at h
          cases h
          have := ih hxs
          simp only [List.length_cons] at this ⊢
          omega

theorem pqDequeue_subset {l : List (Int × String)} {x : Int × String}
    {rest : List (Int × String)} (h : pqDequeue l = some (x, rest)) :
    x ∈ l ∧ ∀ y ∈ rest, y ∈ l := by
  induction l generalizing x rest with
  | nil => simp [pqDequeue] at h
  | cons a xs ih =>
      rcases hxs : pqDequeue xs with _ | ⟨m, rest'⟩
      · simp only [pqDequeue, hxs] at h
        cases h
        exact ⟨List.mem_cons_self _ _, by simp⟩
      · simp only [pqDequeue, hxs] at h
        by_cases hle : a.1 ≤ m.1
        · rw [if_pos hle] at h
          cases h
          exact ⟨List.mem_cons_self _ _, fun y hy => List.mem_cons_of_mem _ hy⟩
        · rw [if_neg hle] at h
          cases h
          obtain ⟨hm, hrest⟩ := ih hxs
          constructor
          · exact List.mem_cons_of_mem _ hm
          · intro y hy
            rcases List.mem_cons.mp hy with hy | hy
            · exact hy ▸ List.mem_cons_self _ _
            · exact List.mem_cons_of_mem _ (hrest y hy)

theorem dictSet_keys_mem {β : Type} {l : List (String × β)} {k : String}
    {v : β} {x : String} :
    x ∈ (dictSet l k v).map Prod.fst ↔ x = k ∨ x ∈ l.map Prod.fst := by
  induction l with
  | nil => simp [dictSet]
  | cons p rest ih =>
      obtain ⟨k', v'⟩ := p
      by_cases hk : k' = k
      · subst hk
        simp only [dictSet, if_true]
        simp only [List.map_cons, List.mem_cons]
        tauto
      · simp only [dictSet]
        rw [if_neg hk]
        simp only [List.map_cons, List.mem_cons, ih]
        tauto

theorem unvisitedCount_congr (g : DirectedGraph α) {vis1 vis2 : List String}
    (h : ∀ x, x ∈ vis1 ↔ x ∈ vis2) :
    unvisitedCount g vis1 = unvisitedCount g vis2 := by
  unfold unvisitedCount
  congr 1
  apply List.filter_congr
  intro x _
  simp [h x]

/-- Priority-queue entries built by the inner `for vert in adj_vert` loop
of `min_path`: one `(distance + edge weight, neighbour)` entry per
adjacency entry, in insertion order; an adjacency weight of Python `None`
would make `distance + adj_vert[vert]` a `TypeError`, modelled as `none`. -/
def adjEntries (distance : Int) :
    List (String × Option Int) → Option (List (Int × String))
  | [] => some []
  | q :: rest =>
      match q.2 with
      | none => none
      | some w => (adjEntries distance rest).map (fun es => (distance + w, q.1) :: es)

/-- Loop of `min_path`: lazy-deletion uniform-cost search.  Dequeue the
minimum-priority entry; a vertex already in the result dict is a stale
entry and is discarded; otherwise the vertex is finalized at the dequeued
distance and every adjacent entry is enqueued unconditionally at
`distance + edge weight` (via `adjEntries`). -/
def minPathLoop (g : DirectedGraph α) (pq : List (Int × String))
    (visited : List (String × Int)) : Option (List (String × Int)) :=
  match hq : pqDequeue pq with
  | none => some visited
  | some ((distance, vertex), pq') =>
    if hfin : dictContains visited vertex then minPathLoop g pq' visited
    else
      match hv : dictLookup g.vertices vertex with
      | none => none
      | some v =>
        match adjEntries distance v.adj_dict with
        | none => none
        | some entries =>
            minPathLoop g (pq' ++ entries) (dictSet visited vertex distance)
termination_by (unvisitedCount g (visited.map Prod.fst), pq.length)
decreasing_by
  · apply Prod.Lex.right
    have := pqDequeue_length hq
    omega
  · apply Prod.Lex.left
    have hkeys : ∀ x,
        x ∈ (dictSet visited vertex distance).map Prod.fst ↔
          x ∈ vertex :: visited.map Prod.fst := by
      intro x
      rw [dictSet_keys_mem, List.mem_cons]
    rw [unvisitedCount_congr g hkeys]
    have hnmem : vertex ∉ visited.map Prod.fst := by
      have : dictContains visited vertex = false := by
        simpa using hfin
      exact dictContains_false_iff.mp this
    exact unvisitedCount_lt g _ vertex (dictLookup_some_key_mem hv) hnmem

/-- `DirectedGraph.min_path`: require a weighted graph and an existing
source, then run the priority-queue loop from `(0, source)`.  The Python
function builds the `visited_vert` dict but ends without a `return`
statement, so on success it returns `None`; success is therefore
modelled as `Unit`. -/
def min_path (g : DirectedGraph α) (source_id : String) :
    Except GraphErr Unit :=
  if g.weighted = false then .error .invalidArgument
  else if dictContains g.vertices source_id = false then .error .notFound
  else
    match minPathLoop g [(0, source_id)] [] with
    | some _ => .ok ()
    | none => .error .keyError

/-- Adjacency closure: every identifier appearing in an adjacency dict is
itself a graph vertex.  The API maintains this: `add_edge` checks both
endpoints and `remove_vertex` severs inbound edges.  It rules out the
`KeyError` of a dangling `self._vertices[vert_id]` subscript. -/
def adjClosed (g : DirectedGraph α) : Prop :=
  ∀ p ∈ g.vertices, ∀ q ∈ p.2.adj_dict, dictContains g.vertices q.1 = true

instance (g : DirectedGraph α) : Decidable (adjClosed g) :=
  inferInstanceAs (Decidable (∀ p ∈ g.vertices, ∀ q ∈ p.2.adj_dict,
    dictContains g.vertices q.1 = true))

/-- Every adjacency entry carries a weight.  The API maintains this for
weighted graphs (`add_edge` stores the supplied weight); it rules out the
`TypeError` of `distance + None` in `min_path`. -/
def weightsPresent (g : DirectedGraph α) : Prop :=
  ∀ p ∈ g.vertices, ∀ q ∈ p.2.adj_dict, (q.2).isSome = true

instance (g : DirectedGraph α) : Decidable (weightsPresent g) :=
  inferInstanceAs (Decidable (∀ p ∈ g.vertices, ∀ q ∈ p.2.adj_dict,
    (q.2).isSome = true))

/-- Existence of a directed path (possibly of length zero) following the
graph's own `edge_exists` relation. -/
def Reachable (g : DirectedGraph α) (a b : String) : Prop :=
  Relation.ReflTransGen (fun x y => edge_exists g x y = true) a b

/-- The spec's weighted scenario graph: vertices A, B, C with edges
A→B of weight 1, B→C of weight 2, A→C of weight 5. -/
def scenarioW : DirectedGraph Nat :=
  { vertices := [("A", ⟨"A", 0, [("B", some 1), ("C", some 5)]⟩),
                 ("B", ⟨"B", 0, [("C", some 2)]⟩),
                 ("C", ⟨"C", 0, []⟩)]
    size := 3
    weighted := true }

/-- The spec's unweighted scenario graph: vertices A, B, C with edges
A→B and B→C. -/
def chainU : DirectedGraph Nat :=
  { vertices := [("A", ⟨"A", 0, [("B", none)]⟩),
                 ("B", ⟨"B", 0, [("C", none)]⟩),
                 ("C", ⟨"C", 0, []⟩)]
    size := 3
    weighted := false }

/-- Unweighted diamond: A→B, A→C, B→D, C→D.  When C is dequeued, B has
been visited but D is still waiting in the queue, so D is enqueued a
second time. -/
def diamondU : DirectedGraph Nat :=
  { vertices := [("A", ⟨"A", 0, [("B", none), ("C", none)]⟩),
                 ("B", ⟨"B", 0, [("D", none)]⟩),
                 ("C", ⟨"C", 0, [("D", none)]⟩),
                 ("D", ⟨"D", 0, []⟩)]
    size := 4
    weighted := false }

/-- The graph obtained from `chainU` by `add_edge("A", "C")`. -/
def chainUAC : DirectedGraph Nat :=
  { vertices := [("A", ⟨"A", 0, [("B", none), ("C", none)]⟩),
                 ("B", ⟨"B", 0, [("C", none)]⟩),
                 ("C", ⟨"C", 0, []⟩)]
    size := 3
    weighted := false }

theorem dictLookup_dictSet_self {β : Type} (l : List (String × β))
    (k : String) (v : β) : dictLookup (dictSet l k v) k = some v := by
  induction l with
  | nil => simp [dictLookup, dictSet]
  | cons p rest ih =>
      obtain ⟨k', v'⟩ := p
      by_cases hk : k' = k
      · subst hk
        simp [dictSet, dictLookup]
      · simp only [dictSet]
        rw [if_neg hk]
        simp only [dictLookup]
        rw [if_neg hk]
        exact ih

theorem dictLookup_dictSet_ne {β : Type} {l : List (String × β)}
    {k u : String} (v : β) (h : k ≠ u) :
    dictLookup (dictSet l k v) u = dictLookup l u := by
  induction l with
  | nil => simp [dictLookup, dictSet, h]
  | cons p rest ih =>
      obtain ⟨k', v'⟩ := p
      by_cases hk : k' = k
      · subst hk
        simp only [dictSet, if_true, dictLookup]
        rw [if_neg h, if_neg h]
      · simp only [dictSet]
        rw [if_neg hk]
        simp only [dictLookup]
        by_cases hu : k' = u
        · rw [if_pos hu, if_pos hu]
        · rw [if_neg hu, if_neg hu]
          exact ih

theorem dictLookup_dictDel_self {β : Type} (l : List (String × β))
    (k : String) : dictLookup (dictDel l k) k = none := by
  apply dictLookup_eq_none_iff.mpr
  intro h
  obtain ⟨p, hp, hfst⟩ := List.mem_map.mp h
  have := (List.mem_filter.mp hp).2
  simp only [decide_eq_true_eq] at this
  exact this hfst

theorem dictDel_cons {β : Type} (k' : String) (v' : β)
    (rest : List (String × β)) (k : String) :
    dictDel ((k', v') :: rest) k =
      if k' = k then dictDel rest k else (k', v') :: dictDel rest k := by
  by_cases hk : k' = k <;> simp [dictDel, List.filter_cons, hk]

theorem dictLookup_dictDel_ne {β : Type} {l : List (String × β)}
    {k u : String} (h : u ≠ k) :
    dictLookup (dictDel l k) u = dictLookup l u := by
  induction l with
  | nil => rfl
  | cons p rest ih =>
      obtain ⟨k', v'⟩ := p
      rw [dictDel_cons]
      by_cases hk : k' = k
      · rw [if_pos hk, ih]
        simp only [dictLookup]
        rw [if_neg (by rw [hk]; exact fun hh => h hh.symm)]
      · rw [if_neg hk]
        simp only [dictLookup]
        by_cases hu : k' = u
        · rw [if_pos hu, if_pos hu]
        · rw [if_neg hu, if_neg hu]
          exact ih

theorem dictLookup_map_removeInbound (v : String)
    (l : List (String × Vertex α)) (k : String) :
    dictLookup (l.map (fun p => (p.1, removeInbound v p.2))) k =
      (dictLookup l k).map (removeInbound v) := by
  induction l with
  | nil => rfl
  | cons p rest ih =>
      obtain ⟨k', v'⟩ := p
      simp only [List.map_cons, dictLookup]
      by_cases hk : k' = k
      · rw [if_pos hk, if_pos hk]
        rfl
      · rw [if_neg hk, if_neg hk]
        exact ih

theorem dfsLoop_nil (g : DirectedGraph α) (target_id : String)
    (visited : List String) : dfsLoop g target_id [] visited = some false := by
  rw [dfsLoop]

theorem dfsLoop_cons_visited (g : DirectedGraph α) (target_id vert_id : String)
    (rest visited : List String) (h : vert_id ∈ visited) :
    dfsLoop g target_id (vert_id :: rest) visited =
      dfsLoop g target_id rest visited := by
  rw [dfsLoop, dif_pos h]

theorem dfsLoop_cons_target (g : DirectedGraph α) (target_id : String)
    (rest visited : List String) (h : target_id ∉ visited) :
    dfsLoop g target_id (target_id :: rest) visited = some true := by
  rw [dfsLoop, dif_neg h, if_pos rfl]

theorem dfsLoop_cons_keyerr (g : DirectedGraph α) (target_id vert_id : String)
    (rest visited : List String) (h1 : vert_id ∉ visited)
    (h2 : vert_id ≠ target_id) (h3 : dictLookup g.vertices vert_id = none) :
    dfsLoop g target_id (vert_id :: rest) visited = none := by
  rw [dfsLoop, dif_neg h1, if_neg h2]
  split
  · rfl
  · rename_i v hv
    rw [h3] at hv
    exact Option.noConfusion hv

theorem dfsLoop_cons_push (g : DirectedGraph α) (target_id vert_id : String)
    (rest visited : List String) (v : Vertex α) (h1 : vert_id ∉ visited)
    (h2 : vert_id ≠ target_id) (h3 : dictLookup g.vertices vert_id = some v) :
    dfsLoop g target_id (vert_id :: rest) visited =
      dfsLoop g target_id ((v.adj_dict.map Prod.fst).reverse ++ rest)
        (vert_id :: visited) := by
  rw [dfsLoop, dif_neg h1, if_neg h2]
  split
  · rename_i hv
    rw [h3] at hv
    exact Option.noConfusion hv
  · rename_i v' hv
    rw [h3] at hv
    cases hv
    rfl

theorem bfsLoop_nil (g : DirectedGraph α) (tid : Option String)
    (visited : List String) (f : Bool) :
    bfsLoop g tid [] visited f = some (visited, f) := by
  rw [bfsLoop]

theorem bfsLoop_cons_keyerr (g : DirectedGraph α) (tid : Option String)
    (vert_id : String) (rest visited : List String) (f : Bool)
    (h : dictLookup g.vertices vert_id = none) :
    bfsLoop g tid (vert_id :: rest) visited f = none := by
  rw [bfsLoop]
  split
  · rfl
  · rename_i v hv
    rw [h] at hv
    exact Option.noConfusion hv

theorem bfsLoop_cons_step (g : DirectedGraph α) (tid : Option String)
    (vert_id : String) (rest visited : List String) (f : Bool) (v : Vertex α)
    (h : dictLookup g.vertices vert_id = some v) :
    bfsLoop g tid (vert_id :: rest) visited f =
      bfsLoop g tid
        (rest ++ (v.adj_dict.map Prod.fst).filter
          (fun x => decide (x ∉ setAdd visited vert_id)))
        (setAdd visited vert_id)
        (f || (pyTruthyStr tid && (some vert_id == tid))) := by
  rw [bfsLoop]
  split
  · rename_i hv
    rw [h] at hv
    exact Option.noConfusion hv
  · rename_i v' hv
    rw [h] at hv
    cases hv
    rfl

theorem bfsLoopAudit_nil (g : DirectedGraph α) (visited : List String)
    (d nv : Bool) : bfsLoopAudit g [] visited d nv = some (visited, d, nv) := by
  rw [bfsLoopAudit]

theorem bfsLoopAudit_cons_keyerr (g : DirectedGraph α) (vert_id : String)
    (rest visited : List String) (d nv : Bool)
    (h : dictLookup g.vertices vert_id = none) :
    bfsLoopAudit g (vert_id :: rest) visited d nv = none := by
  rw [bfsLoopAudit]
  split
  · rfl
  · rename_i v hv
    rw [h] at hv
    exact Option.noConfusion hv

theorem bfsLoopAudit_cons_step (g : DirectedGraph α) (vert_id : String)
    (rest visited : List String) (d nv : Bool) (v : Vertex α)
    (h : dictLookup g.vertices vert_id = some v) :
    bfsLoopAudit g (vert_id :: rest) visited d nv =
      bfsLoopAudit g
        (rest ++ (v.adj_dict.map Prod.fst).filter
          (fun x => decide (x ∉ setAdd visited vert_id)))
        (setAdd visited vert_id)
        (d && decide (List.Nodup (rest ++ (v.adj_dict.map Prod.fst).filter
          (fun x => decide (x ∉ setAdd visited vert_id)))))
        (nv && ((v.adj_dict.map Prod.fst).filter
          (fun x => decide (x ∉ setAdd visited vert_id))).all
            (fun x => decide (x ∉ setAdd visited vert_id))) := by
  rw [bfsLoopAudit]
  split
  · rename_i hv
    rw [h] at hv
    exact Option.noConfusion hv
  · rename_i v' hv
    rw [h] at hv
    cases hv
    rfl

theorem minPathLoop_empty (g : DirectedGraph α) (pq : List (Int × String))
    (visited : List (String × Int)) (h : pqDequeue pq = none) :
    minPathLoop g pq visited = some visited := by
  rw [minPathLoop]
  split
  · rfl
  · rename_i d vtx pq' hq
    rw [h] at hq
    exact Option.noConfusion hq

theorem minPathLoop_stale (g : DirectedGraph α) (pq pq' : List (Int × String))
    (visited : List (String × Int)) (d : Int) (vtx : String)
    (h : pqDequeue pq = some ((d, vtx), pq'))
    (hfin : dictContains visited vtx = true) :
    minPathLoop g pq visited = minPathLoop g pq' visited := by
  rw [minPathLoop]
  split
  · rename_i hq
    rw [h] at hq
    exact Option.noConfusion hq
  · rename_i d' vtx' pq'' hq
    rw [h] at hq
    cases hq
    rw [dif_pos hfin]

theorem minPathLoop_keyerr (g : DirectedGraph α) (pq pq' : List (Int × String))
    (visited : List (String × Int)) (d : Int) (vtx : String)
    (h : pqDequeue pq = some ((d, vtx), pq'))
    (hfin : ¬dictContains visited vtx = true)
    (hv : dictLookup g.vertices vtx = none) :
    minPathLoop g pq visited = none := by
  rw [minPathLoop]
  split
  · rename_i hq
    rw [h] at hq
    exact Option.noConfusion hq
  · rename_i d' vtx' pq'' hq
    rw [h] at hq
    cases hq
    rw [dif_neg hfin]
    split
    · rfl
    · rename_i v hv'
      rw [hv] at hv'
      exact Option.noConfusion hv'

theorem minPathLoop_step (g : DirectedGraph α) (pq pq' : List (Int × String))
    (visited : List (String × Int)) (d : Int) (vtx : String) (v : Vertex α)
    (entries : List (Int × String))
    (h : pqDequeue pq = some ((d, vtx), pq'))
    (hfin : ¬dictContains visited vtx = true)
    (hv : dictLookup g.vertices vtx = some v)
    (he : adjEntries d v.adj_dict = some entries) :
    minPathLoop g pq visited =
      minPathLoop g (pq' ++ entries) (dictSet visited vtx d) := by
  rw [minPathLoop]
  split
  · rename_i hq
    rw [h] at hq
    exact Option.noConfusion hq
  · rename_i d' vtx' pq'' hq
    rw [h] at hq
    cases hq
    rw [dif_neg hfin]
    split
    · rename_i hv'
      rw [hv] at hv'
      exact Option.noConfusion hv'
    · rename_i v' hv'
      rw [hv] at hv'
      cases hv'
      split
      · rename_i he'
        rw [he] at he'
        exact Option.noConfusion he'
      · rename_i entries' he'
        rw [he] at he'
        cases he'
        rfl

/-- Claim C1 (code-bug evaluation): on the spec's scenario graph the
`min_path` loop internally computes the distances A at 0, B at 1, C at 3,
finalized in exactly that order, yet `min_path` itself succeeds with no
return value, because the Python function body ends without a `return`
statement (contradicting its own docstring, which promises a
`(ordered list, distance dict)` tuple). -/
theorem claim_C1_min_path_returns_nothing :
    min_path scenarioW "A" = Except.ok () ∧
    minPathLoop scenarioW [((0 : Int), "A")] [] =
      some [("A", 0), ("B", 1), ("C", 3)] := by
  constructor
  · simp [min_path, minPathLoop, pqDequeue, adjEntries, dictContains,
      dictLookup, dictSet, scenarioW]
  · simp [minPathLoop, pqDequeue, adjEntries, dictContains, dictLookup,
      dictSet, scenarioW]

/-- Claim C4: `remove_vertex` raises `NotFound` when the vertex is absent
(the graph value is untouched, the operation being pure); when the vertex
is present it deletes the vertex entry, removes the identifier from every
other vertex's adjacency dict (so no inbound edge survives), and
decrements `size` by one. -/
theorem claim_C4_remove_vertex (g : DirectedGraph α) (v : String) :
    (vertex_exists g v = false →
      remove_vertex g v = Except.error GraphErr.notFound) ∧
    (vertex_exists g v = true →
      ∃ g', remove_vertex g v = Except.ok g' ∧
        g'.size = g.size - 1 ∧
        vertex_exists g' v = false ∧
        (∀ u, edge_exists g' u v = false) ∧
        (∀ u, u ≠ v → dictLookup g'.vertices u =
          (dictLookup g.vertices u).map (removeInbound v))) := by
  constructor
  · intro h
    unfold vertex_exists at h
    simp [remove_vertex, h]
  · intro h
    unfold vertex_exists at h
    refine ⟨{ g with
        vertices := dictDel (g.vertices.map fun p =>
          (p.1, removeInbound v p.2)) v
        size := g.size - 1 }, ?_, rfl, ?_, ?_, ?_⟩
    · simp [remove_vertex, h]
    · unfold vertex_exists dictContains
      rw [dictLookup_dictDel_self]
      rfl
    · intro u
      unfold edge_exists
      by_cases huv : u = v
      · subst huv
        rw [dictLookup_dictDel_self]
      · rw [dictLookup_dictDel_ne huv, dictLookup_map_removeInbound]
        cases hu : dictLookup g.vertices u with
        | none => rfl
        | some vx =>
            simp [removeInbound, dictContains, dictLookup_dictDel_self]
    · intro u hu
      rw [dictLookup_dictDel_ne hu, dictLookup_map_removeInbound]

/-- Claim C5: `add_vertex` on an existing identifier replaces only the
value, keeps the old outbound adjacency dict and the size, and leaves
every other vertex entry (hence every inbound edge) unchanged; on a fresh
identifier it inserts a vertex with empty adjacency and increments `size`
by one, likewise leaving all other entries unchanged. -/
theorem claim_C5_add_vertex (g : DirectedGraph α) (identifier : String)
    (value2 : α) :
    (∀ old_vert, dictLookup g.vertices identifier = some old_vert →
      (add_vertex g identifier value2).size = g.size ∧
      dictLookup (add_vertex g identifier value2).vertices identifier =
        some ⟨identifier, value2, old_vert.adj_dict⟩ ∧
      (∀ u, u ≠ identifier →
        dictLookup (add_vertex g identifier value2).vertices u =
          dictLookup g.vertices u)) ∧
    (dictLookup g.vertices identifier = none →
      (add_vertex g identifier value2).size = g.size + 1 ∧
      dictLookup (add_vertex g identifier value2).vertices identifier =
        some ⟨identifier, value2, []⟩ ∧
      (∀ u, u ≠ identifier →
        dictLookup (add_vertex g identifier value2).vertices u =
          dictLookup g.vertices u)) := by
  constructor
  · intro old_vert h
    unfold add_vertex
    rw [h]
    exact ⟨rfl, dictLookup_dictSet_self _ _ _,
      fun u hu => dictLookup_dictSet_ne _ (fun hh => hu hh.symm)⟩
  · intro h
    unfold add_vertex
    rw [h]
    exact ⟨rfl, dictLookup_dictSet_self _ _ _,
      fun u hu => dictLookup_dictSet_ne _ (fun hh => hu hh.symm)⟩

/-- Claim C6: `add_edge` is idempotent — once a call `add_edge(a, b, w1)`
has succeeded (producing graph `g'`, whether it inserted the edge or was
already a no-op), a second call `add_edge(a, b, w2)` with any weight,
including no weight at all, is a no-op that raises nothing and returns
the very same graph. -/
theorem claim_C6_add_edge_idempotent (g g' : DirectedGraph α)
    (a b : String) (w1 w2 : Option Int)
    (h : add_edge g a b w1 = Except.ok g') :
    add_edge g' a b w2 = Except.ok g' := by
  unfold add_edge at h
  cases hl : dictLookup g.vertices a with
  | none =>
      rw [hl] at h
      simp at h
  | some sv =>
      simp only [hl] at h
      by_cases hdest : dictContains g.vertices b = false
      · rw [if_pos hdest] at h
        simp at h
      · rw [if_neg hdest] at h
        have hdest' : dictContains g.vertices b = true := by
          simpa using hdest
        by_cases hadj : dictContains sv.adj_dict b = true
        · rw [if_pos hadj] at h
          cases h
          simp [add_edge, hl, hdest, hadj]
        · rw [if_neg hadj] at h
          by_cases hw : (g.weighted && isFalsy w1) = true
          · rw [if_pos hw] at h
            simp at h
          · rw [if_neg hw] at h
            cases h
            have hb' : dictContains (dictSet g.vertices a { sv with adj_dict := dictSet sv.adj_dict b (if g.weighted then w1 else none) }) b = true :=
              dictContains_true_iff.mpr
                (dictSet_keys_mem.mpr (Or.inr (dictContains_true_iff.mp hdest')))
            have hadj' : dictContains (dictSet sv.adj_dict b (if g.weighted then w1 else none)) b = true := by
              unfold dictContains
              rw [dictLookup_dictSet_self]
              rfl
            simp [add_edge, dictLookup_dictSet_self, hb', hadj']

/-- Claim C7: on a weighted graph with both endpoints present and the edge
not yet existing, `add_edge` with no weight, and `add_edge` with weight 0,
both fail with `InvalidArgument` (Python `not weight` is true for both
`None` and `0`), inserting nothing. -/
theorem claim_C7_weighted_edge_needs_weight (g : DirectedGraph α)
    (a b : String) (hw : g.weighted = true) (ha : vertex_exists g a = true)
    (hb : vertex_exists g b = true) (hne : edge_exists g a b = false) :
    add_edge g a b none = Except.error GraphErr.invalidArgument ∧
    add_edge g a b (some 0) = Except.error GraphErr.invalidArgument := by
  obtain ⟨sv, hsv⟩ : ∃ sv, dictLookup g.vertices a = some sv := by
    unfold vertex_exists dictContains at ha
    cases hl : dictLookup g.vertices a with
    | none => rw [hl] at ha; simp at ha
    | some sv => exact ⟨sv, rfl⟩
  have hb' : dictContains g.vertices b = true := hb
  have hadjF : dictContains sv.adj_dict b = false := by
    unfold edge_exists at hne
    simp only [hsv] at hne
    exact hne
  constructor <;> simp [add_edge, hsv, hb', hadjF, hw, isFalsy]

theorem bfsLoop_falsy_target (g : DirectedGraph α) (tid : Option String)
    (ht : pyTruthyStr tid = false) (queue visited : List String) (f : Bool) :
    bfsLoop g tid queue visited f = bfsLoop g none queue visited f := by
  induction queue, visited, f using bfsLoop.induct g tid with
  | case1 visited f => rw [bfsLoop_nil, bfsLoop_nil]
  | case2 visited f vert_id rest hv =>
      rw [bfsLoop_cons_keyerr _ _ _ _ _ _ hv,
        bfsLoop_cons_keyerr _ _ _ _ _ _ hv]
  | case3 visited f vert_id rest found' visited' v hv ih =>
      rw [bfsLoop_cons_step _ _ _ _ _ _ _ hv,
        bfsLoop_cons_step _ _ _ _ _ _ _ hv]
      unfold_let found' visited' at ih
      rw [ht] at ih
      simp only [Bool.false_and, Bool.or_false] at ih
      rw [ht]
      simp only [pyTruthyStr, Bool.false_and, Bool.or_false]
      exact ih

/-- Claim C10: a falsy target identifier (the empty string, like Python
`None`) makes `breadth_first_search` behave exactly as if no target had
been supplied: the target's existence is never checked (no `NotFound`
even if it is absent, and none if a vertex named by the empty string
exists) and the bare reachable list is returned rather than a
`(found, list)` pair. -/
theorem claim_C10_bfs_falsy_target (g : DirectedGraph α) (s : String) :
    breadth_first_search g s (some "") = breadth_first_search g s none ∧
    (∀ r, breadth_first_search g s (some "") = Except.ok r →
      ∃ l, r = BfsResult.plain l) := by
  have ht : pyTruthyStr (some "") = false := by simp [pyTruthyStr]
  have h1 : breadth_first_search g s (some "") =
      breadth_first_search g s none := by
    unfold breadth_first_search
    rw [bfsLoop_falsy_target g (some "") ht]
    simp [ht, pyTruthyStr]
  refine ⟨h1, ?_⟩
  intro r hr
  rw [h1] at hr
  unfold breadth_first_search at hr
  by_cases hsrc : dictContains g.vertices s = false
  · rw [if_pos hsrc] at hr
    exact absurd hr (by simp)
  · rw [if_neg hsrc] at hr
    simp only [pyTruthyStr, Bool.false_and, Bool.false_eq_true, if_false] at hr
    cases hloop : bfsLoop g none [s] [] false with
    | none =>
        simp only [hloop] at hr
        exact absurd hr (by simp)
    | some p =>
        obtain ⟨vis, f⟩ := p
        simp only [hloop, pyTruthyStr, Bool.false_eq_true, if_false] at hr
        cases hr
        exact ⟨vis, rfl⟩

theorem list_all_filter_self (l : List String) (p : String → Bool) :
    (l.filter p).all p = true := by
  rw [List.all_eq_true]
  intro x hx
  exact (List.mem_filter.mp hx).2

theorem bfsLoopAudit_no_vis_enq (g : DirectedGraph α) :
    ∀ queue visited d nv r, bfsLoopAudit g queue visited d nv = some r →
      nv = true → r.2.2 = true := by
  intro queue visited d nv
  induction queue, visited, d, nv using bfsLoopAudit.induct g with
  | case1 visited d nv =>
      intro r h hnv
      rw [bfsLoopAudit_nil] at h
      cases h
      exact hnv
  | case2 visited d nv vert_id rest hv =>
      intro r h hnv
      rw [bfsLoopAudit_cons_keyerr _ _ _ _ _ _ hv] at h
      exact Option.noConfusion h
  | case3 visited d nv vert_id rest visited' v hv enqueued ih =>
      intro r h hnv
      rw [bfsLoopAudit_cons_step _ _ _ _ _ _ _ hv] at h
      unfold_let visited' enqueued at ih
      refine ih r h ?_
      rw [hnv, list_all_filter_self]
      rfl

/-- Claim C8 counterexample: on the diamond graph A→B, A→C, B→D, C→D a
run of the BFS queue loop from A reaches a queue state holding the
identifier D twice (when C is dequeued, D — enqueued by B — has not yet
been dequeued, so D is enqueued again), refuting the claim that no
identifier is ever enqueued more than once. -/
theorem claim_C8_counterexample :
    bfs_queue_dup_free diamondU "A" = some false := by
  simp [bfs_queue_dup_free, bfsLoopAudit, setAdd, dictContains, dictLookup,
    diamondU]

/-- Claim C8 (amended): the enqueue-time check against the visited set
prevents enqueueing an identifier that is already visited (dequeued at
least once), so no vertex is enqueued after its first dequeue; the queue
may nonetheless hold several entries for the same not-yet-visited
identifier. -/
theorem claim_C8_amended_no_visited_enqueue (g : DirectedGraph α)
    (s : String) (b : Bool) (h : bfs_no_visited_enqueue g s = some b) :
    b = true := by
  unfold bfs_no_visited_enqueue at h
  cases hr : bfsLoopAudit g [s] [] true true with
  | none =>
      rw [hr] at h
      exact Option.noConfusion h
  | some r =>
      rw [hr] at h
      simp only [Option.map_some'] at h
      cases h
      exact bfsLoopAudit_no_vis_enq g [s] [] true true r hr rfl

theorem edge_exists_iff_adj {g : DirectedGraph α} {a b : String}
    {v : Vertex α} (hv : dictLookup g.vertices a = some v) :
    edge_exists g a b = true ↔ b ∈ v.adj_dict.map Prod.fst := by
  unfold edge_exists
  simp only [hv]
  exact dictContains_true_iff

theorem reachable_mem_closed (g : DirectedGraph α) {V : List String}
    {s t : String} (hs : s ∈ V)
    (hcl : ∀ x ∈ V, ∀ y, edge_exists g x y = true → y ∈ V)
    (h : Reachable g s t) : t ∈ V := by
  induction h with
  | refl => exact hs
  | tail h1 e ih => exact hcl _ ih _ e

theorem dfsLoop_true_reachable (g : DirectedGraph α) (s target_id : String) :
    ∀ stack visited,
      (∀ x ∈ stack, Reachable g s x) →
      dfsLoop g target_id stack visited = some true →
      Reachable g s target_id := by
  intro stack visited
  induction stack, visited using dfsLoop.induct g target_id with
  | case1 visited =>
      intro _ h
      rw [dfsLoop_nil] at h
      simp at h
  | case2 visited vert_id rest hvis ih =>
      intro hst h
      rw [dfsLoop_cons_visited _ _ _ _ _ hvis] at h
      exact ih (fun x hx => hst x (List.mem_cons_of_mem _ hx)) h
  | case3 visited rest htv =>
      intro hst _
      exact hst target_id (List.mem_cons_self _ _)
  | case4 visited vert_id rest hvis hne hlook =>
      intro hst h
      rw [dfsLoop_cons_keyerr _ _ _ _ _ hvis hne hlook] at h
      exact Option.noConfusion h
  | case5 visited vert_id rest hvis hne v hlook ih =>
      intro hst h
      rw [dfsLoop_cons_push _ _ _ _ _ _ hvis hne hlook] at h
      apply ih _ h
      intro x hx
      rcases List.mem_append.mp hx with hx | hx
      · have hr : Reachable g s vert_id := hst vert_id (List.mem_cons_self _ _)
        have hadj : x ∈ v.adj_dict.map Prod.fst := List.mem_reverse.mp hx
        exact Relation.ReflTransGen.tail hr ((edge_exists_iff_adj hlook).mpr hadj)
      · exact hst x (List.mem_cons_of_mem _ hx)

theorem dfsLoop_false_closed (g : DirectedGraph α) (target_id : String) :
    ∀ stack visited,
      dfsLoop g target_id stack visited = some false →
      (∀ x ∈ visited, ∀ y, edge_exists g x y = true →
        y ∈ visited ∨ y ∈ stack) →
      target_id ∉ visited →
      ∃ V : List String, (∀ x ∈ stack, x ∈ V) ∧ (∀ x ∈ visited, x ∈ V) ∧
        (∀ x ∈ V, ∀ y, edge_exists g x y = true → y ∈ V) ∧
        target_id ∉ V := by
  intro stack visited
  induction stack, visited using dfsLoop.induct g target_id with
  | case1 visited =>
      intro _ hinv ht
      refine ⟨visited, ?_, fun x hx => hx, ?_, ht⟩
      · intro x hx
        exact absurd hx (List.not_mem_nil x)
      · intro x hx y hy
        rcases hinv x hx y hy with h1 | h1
        · exact h1
        · exact absurd h1 (List.not_mem_nil y)
  | case2 visited vert_id rest hvis ih =>
      intro h hinv ht
      rw [dfsLoop_cons_visited _ _ _ _ _ hvis] at h
      have hinv' : ∀ x ∈ visited, ∀ y, edge_exists g x y = true →
          y ∈ visited ∨ y ∈ rest := by
        intro x hx y hy
        rcases hinv x hx y hy with h1 | h1
        · exact Or.inl h1
        · rcases List.mem_cons.mp h1 with h1 | h1
          · subst h1
            exact Or.inl hvis
          · exact Or.inr h1
      obtain ⟨V, hsV, hvV, hclV, htV⟩ := ih h hinv' ht
      refine ⟨V, ?_, hvV, hclV, htV⟩
      intro x hx
      rcases List.mem_cons.mp hx with h1 | h1
      · subst h1
        exact hvV x hvis
      · exact hsV x h1
  | case3 visited rest htv =>
      intro h _ _
      rw [dfsLoop_cons_target _ _ _ _ htv] at h
      simp at h
  | case4 visited vert_id rest hvis hne hlook =>
      intro h _ _
      rw [dfsLoop_cons_keyerr _ _ _ _ _ hvis hne hlook] at h
      exact Option.noConfusion h
  | case5 visited vert_id rest hvis hne v hlook ih =>
      intro h hinv ht
      rw [dfsLoop_cons_push _ _ _ _ _ _ hvis hne hlook] at h
      have ht2 : target_id ∉ vert_id :: visited := by
        intro hmem
        rcases List.mem_cons.mp hmem with h1 | h1
        · exact hne h1.symm
        · exact ht h1
      have hinv' : ∀ x ∈ vert_id :: visited, ∀ y,
          edge_exists g x y = true →
          y ∈ vert_id :: visited ∨
            y ∈ (v.adj_dict.map Prod.fst).reverse ++ rest := by
        intro x hx y hy
        rcases List.mem_cons.mp hx with h1 | h1
        · subst h1
          refine Or.inr (List.mem_append.mpr (Or.inl ?_))
          rw [List.mem_reverse]
          exact (edge_exists_iff_adj hlook).mp hy
        · rcases hinv x h1 y hy with h2 | h2
          · exact Or.inl (List.mem_cons_of_mem _ h2)
          · rcases List.mem_cons.mp h2 with h3 | h3
            · subst h3
              exact Or.inl (List.mem_cons_self _ _)
            · exact Or.inr (List.mem_append.mpr (Or.inr h3))
      obtain ⟨V, hsV, hvV, hclV, htV⟩ := ih h hinv' ht2
      refine ⟨V, ?_, fun x hx => hvV x (List.mem_cons_of_mem _ hx), hclV, htV⟩
      intro x hx
      rcases List.mem_cons.mp hx with h1 | h1
      · subst h1
        exact hvV x (List.mem_cons_self _ _)
      · exact hsV x (List.mem_append.mpr (Or.inr h1))

theorem dfsLoop_isSome (g : DirectedGraph α) (target_id : String)
    (hcl : adjClosed g) :
    ∀ stack visited, (∀ x ∈ stack, dictContains g.vertices x = true) →
      (dfsLoop g target_id stack visited).isSome = true := by
  intro stack visited
  induction stack, visited using dfsLoop.induct g target_id with
  | case1 visited =>
      intro _
      rw [dfsLoop_nil]
      rfl
  | case2 visited vert_id rest hvis ih =>
      intro hst
      rw [dfsLoop_cons_visited _ _ _ _ _ hvis]
      exact ih (fun x hx => hst x (List.mem_cons_of_mem _ hx))
  | case3 visited rest htv =>
      intro _
      rw [dfsLoop_cons_target _ _ _ _ htv]
      rfl
  | case4 visited vert_id rest hvis hne hlook =>
      intro hst
      have hc := hst vert_id (List.mem_cons_self _ _)
      unfold dictContains at hc
      rw [hlook] at hc
      simp at hc
  | case5 visited vert_id rest hvis hne v hlook ih =>
      intro hst
      rw [dfsLoop_cons_push _ _ _ _ _ _ hvis hne hlook]
      apply ih
      intro x hx
      rcases List.mem_append.mp hx with hx | hx
      · have hadj : x ∈ v.adj_dict.map Prod.fst := List.mem_reverse.mp hx
        obtain ⟨q, hq, hq1⟩ := List.mem_map.mp hadj
        subst hq1
        exact hcl (vert_id, v) (dictLookup_some_mem hlook) q hq
      · exact hst x (List.mem_cons_of_mem _ hx)

/-- Claim C2: for every adjacency-closed graph and vertices s, t present
in it, `depth_first_search(s, t)` returns true exactly when a directed
path (possibly of length zero) from s to t exists; in particular
`depth_first_search(s, s)` is true. -/
theorem claim_C2_dfs_iff_reachable (g : DirectedGraph α) (s t : String)
    (hcl : adjClosed g) (hs : vertex_exists g s = true)
    (ht : vertex_exists g t = true) :
    depth_first_search g s t = Except.ok true ↔ Reachable g s t := by
  have hs' : dictContains g.vertices s = true := hs
  have ht' : dictContains g.vertices t = true := ht
  have hsF : ¬(dictContains g.vertices s = false) := by simp [hs']
  have htF : ¬(dictContains g.vertices t = false) := by simp [ht']
  have hstack : ∀ x ∈ [s], dictContains g.vertices x = true := by
    intro x hx
    rcases List.mem_singleton.mp hx with rfl
    exact hs'
  constructor
  · intro h
    unfold depth_first_search at h
    rw [if_neg hsF, if_neg htF] at h
    cases hloop : dfsLoop g t [s] [] with
    | none =>
        simp only [hloop] at h
        exact absurd h (by simp)
    | some b =>
        simp only [hloop] at h
        have hb : b = true := by
          cases b
          · exact absurd h (by simp)
          · rfl
        subst hb
        apply dfsLoop_true_reachable g s t [s] [] ?_ hloop
        intro x hx
        rcases List.mem_singleton.mp hx with rfl
        exact Relation.ReflTransGen.refl
  · intro hr
    unfold depth_first_search
    rw [if_neg hsF, if_neg htF]
    have hsome := dfsLoop_isSome g t hcl [s] [] hstack
    cases hloop : dfsLoop g t [s] [] with
    | none =>
        rw [hloop] at hsome
        simp at hsome
    | some b =>
        cases b with
        | true => simp only [hloop]
        | false =>
            exfalso
            obtain ⟨V, hsV, hvV, hclV, htV⟩ :=
              dfsLoop_false_closed g t [s] [] hloop
                (fun x hx => absurd hx (List.not_mem_nil x))
                (List.not_mem_nil t)
            exact htV (reachable_mem_closed g
              (hsV s (List.mem_singleton.mpr rfl)) hclV hr)

theorem mem_setAdd_iff {s : List String} {x y : String} :
    y ∈ setAdd s x ↔ y = x ∨ y ∈ s := by
  unfold setAdd
  by_cases h : x ∈ s
  · rw [if_pos h]
    constructor
    · exact Or.inr
    · intro hy
      rcases hy with hy | hy
      · subst hy
        exact h
      · exact hy
  · rw [if_neg h]
    exact List.mem_cons

theorem bfsLoop_spec (g : DirectedGraph α) (tid : Option String) :
    ∀ queue visited f V fl, bfsLoop g tid queue visited f = some (V, fl) →
      (∀ x ∈ visited, ∀ y, edge_exists g x y = true →
        y ∈ visited ∨ y ∈ queue) →
      (∀ x ∈ queue, x ∈ V) ∧ (∀ x ∈ visited, x ∈ V) ∧
        (∀ x ∈ V, ∀ y, edge_exists g x y = true → y ∈ V) := by
  intro queue visited f
  induction queue, visited, f using bfsLoop.induct g tid with
  | case1 visited f =>
      intro V fl h hinv
      rw [bfsLoop_nil] at h
      cases h
      refine ⟨fun x hx => absurd hx (List.not_mem_nil x), fun x hx => hx, ?_⟩
      intro x hx y hy
      rcases hinv x hx y hy with h1 | h1
      · exact h1
      · exact absurd h1 (List.not_mem_nil y)
  | case2 visited f vert_id rest hv =>
      intro V fl h hinv
      rw [bfsLoop_cons_keyerr _ _ _ _ _ _ hv] at h
      exact Option.noConfusion h
  | case3 visited f vert_id rest found' visited' v hv ih =>
      intro V fl h hinv
      rw [bfsLoop_cons_step _ _ _ _ _ _ _ hv] at h
      have hinv' : ∀ x ∈ setAdd visited vert_id, ∀ y,
          edge_exists g x y = true →
          y ∈ setAdd visited vert_id ∨
            y ∈ rest ++ (v.adj_dict.map Prod.fst).filter
              (fun x => decide (x ∉ setAdd visited vert_id)) := by
        intro x hx y hy
        rcases mem_setAdd_iff.mp hx with h1 | h1
        · subst h1
          by_cases hyv : y ∈ setAdd visited x
          · exact Or.inl hyv
          · refine Or.inr (List.mem_append.mpr (Or.inr ?_))
            rw [List.mem_filter]
            exact ⟨(edge_exists_iff_adj hv).mp hy, by simpa using hyv⟩
        · rcases hinv x h1 y hy with h2 | h2
          · exact Or.inl (mem_setAdd_iff.mpr (Or.inr h2))
          · rcases List.mem_cons.mp h2 with h3 | h3
            · subst h3
              exact Or.inl (mem_setAdd_iff.mpr (Or.inl rfl))
            · exact Or.inr (List.mem_append.mpr (Or.inl h3))
      obtain ⟨hqV, hvV, hclV⟩ := ih V fl h hinv'
      refine ⟨?_, ?_, hclV⟩
      · intro x hx
        rcases List.mem_cons.mp hx with h1 | h1
        · subst h1
          exact hvV x (mem_setAdd_iff.mpr (Or.inl rfl))
        · exact hqV x (List.mem_append.mpr (Or.inl h1))
      · intro x hx
        exact hvV x (mem_setAdd_iff.mpr (Or.inr hx))
  
theorem bfsLoop_reachable (g : DirectedGraph α) (tid : Option String)
    (s : String) :
    ∀ queue visited f V fl, bfsLoop g tid queue visited f = some (V, fl) →
      (∀ x ∈ queue, Reachable g s x) → (∀ x ∈ visited, Reachable g s x) →
      ∀ x ∈ V, Reachable g s x := by
  intro queue visited f
  induction queue, visited, f using bfsLoop.induct g tid with
  | case1 visited f =>
      intro V fl h _ hv
      rw [bfsLoop_nil] at h
      cases h
      exact hv
  | case2 visited f vert_id rest hv =>
      intro V fl h _ _
      rw [bfsLoop_cons_keyerr _ _ _ _ _ _ hv] at h
      exact Option.noConfusion h
  | case3 visited f vert_id rest found' visited' v hv ih =>
      intro V fl h hq hvr
      rw [bfsLoop_cons_step _ _ _ _ _ _ _ hv] at h
      have hvert : Reachable g s vert_id := hq vert_id (List.mem_cons_self _ _)
      apply ih V fl h
      · intro x hx
        rcases List.mem_append.mp hx with hx | hx
        · exact hq x (List.mem_cons_of_mem _ hx)
        · have hadj : x ∈ v.adj_dict.map Prod.fst := (List.mem_filter.mp hx).1
          exact Relation.ReflTransGen.tail hvert
            ((edge_exists_iff_adj hv).mpr hadj)
      · intro x hx
        rcases mem_setAdd_iff.mp hx with h1 | h1
        · subst h1
          exact hvert
        · exact hvr x h1

theorem bfsLoop_isSome (g : DirectedGraph α) (tid : Option String)
    (hcl : adjClosed g) :
    ∀ queue visited f, (∀ x ∈ queue, dictContains g.vertices x = true) →
      (bfsLoop g tid queue visited f).isSome = true := by
  intro queue visited f
  induction queue, visited, f using bfsLoop.induct g tid with
  | case1 visited f =>
      intro _
      rw [bfsLoop_nil]
      rfl
  | case2 visited f vert_id rest hv =>
      intro hq
      have hc := hq vert_id (List.mem_cons_self _ _)
      unfold dictContains at hc
      rw [hv] at hc
      simp at hc
  | case3 visited f vert_id rest found' visited' v hv ih =>
      intro hq
      rw [bfsLoop_cons_step _ _ _ _ _ _ _ hv]
      apply ih
      intro x hx
      rcases List.mem_append.mp hx with hx | hx
      · exact hq x (List.mem_cons_of_mem _ hx)
      · have hadj : x ∈ v.adj_dict.map Prod.fst := (List.mem_filter.mp hx).1
        obtain ⟨q, hqmem, hq1⟩ := List.mem_map.mp hadj
        subst hq1
        exact hcl (vert_id, v) (dictLookup_some_mem hv) q hqmem

/-- Claim C3: for every adjacency-closed graph and source s present in it,
`breadth_first_search(s)` with no target returns the bare list of exactly
the vertices reachable from s (s itself included, by the empty path). -/
theorem claim_C3_bfs_reachable_set (g : DirectedGraph α) (s : String)
    (hcl : adjClosed g) (hs : vertex_exists g s = true) :
    ∃ l, breadth_first_search g s none = Except.ok (BfsResult.plain l) ∧
      ∀ x, x ∈ l ↔ Reachable g s x := by
  have hs' : dictContains g.vertices s = true := hs
  have hsF : ¬(dictContains g.vertices s = false) := by simp [hs']
  have hstack : ∀ x ∈ [s], dictContains g.vertices x = true := by
    intro x hx
    rcases List.mem_singleton.mp hx with rfl
    exact hs'
  have hsreach : ∀ x ∈ [s], Reachable g s x := by
    intro x hx
    rcases List.mem_singleton.mp hx with rfl
    exact Relation.ReflTransGen.refl
  unfold breadth_first_search
  rw [if_neg hsF, if_neg (by simp [pyTruthyStr])]
  have hsome := bfsLoop_isSome g none hcl [s] [] false hstack
  cases hloop : bfsLoop g none [s] [] false with
  | none =>
      rw [hloop] at hsome
      simp at hsome
  | some p =>
      obtain ⟨V, fl⟩ := p
      simp only [hloop]
      rw [if_neg (by simp [pyTruthyStr])]
      refine ⟨V, rfl, ?_⟩
      intro x
      constructor
      · intro hx
        exact bfsLoop_reachable g none s [s] [] false V fl hloop hsreach
          (fun y hy => absurd hy (List.not_mem_nil y)) x hx
      · intro hx
        obtain ⟨hqV, hvV, hclV⟩ := bfsLoop_spec g none [s] [] false V fl
          hloop (fun y hy => absurd hy (List.not_mem_nil y))
        exact reachable_mem_closed g (hqV s (List.mem_singleton.mpr rfl))
          hclV hx

theorem adjEntries_isSome (d : Int) (l : List (String × Option Int))
    (h : ∀ q ∈ l, (q.2).isSome = true) : (adjEntries d l).isSome = true := by
  induction l with
  | nil => rfl
  | cons q rest ih =>
      have hq := h q (List.mem_cons_self _ _)
      cases hw : q.2 with
      | none =>
          rw [hw] at hq
          simp at hq
      | some w =>
          simp only [adjEntries, hw]
          have hrest := ih (fun q' hq' => h q' (List.mem_cons_of_mem _ hq'))
          cases hrest2 : adjEntries d rest with
          | none =>
              rw [hrest2] at hrest
              simp at hrest
          | some es => rfl

theorem adjEntries_mem {d : Int} {l : List (String × Option Int)}
    {entries : List (Int × String)} (h : adjEntries d l = some entries) :
    ∀ e ∈ entries, ∃ q ∈ l, e.2 = q.1 := by
  induction l generalizing entries with
  | nil =>
      simp only [adjEntries] at h
      cases h
      intro e he
      exact absurd he (List.not_mem_nil e)
  | cons q rest ih =>
      cases hw : q.2 with
      | none =>
          simp only [adjEntries, hw] at h
          exact Option.noConfusion h
      | some w =>
          simp only [adjEntries, hw] at h
          cases hrest : adjEntries d rest with
          | none =>
              rw [hrest] at h
              simp at h
          | some es =>
              rw [hrest] at h
              simp only [Option.map_some'] at h
              cases h
              intro e he
              rcases List.mem_cons.mp he with h1 | h1
              · subst h1
                exact ⟨q, List.mem_cons_self _ _, rfl⟩
              · obtain ⟨q', hq', he'⟩ := ih hrest e h1
                exact ⟨q', List.mem_cons_of_mem _ hq', he'⟩

theorem minPathLoop_isSome (g : DirectedGraph α) (hcl : adjClosed g)
    (hwt : weightsPresent g) :
    ∀ pq visited, (∀ e ∈ pq, dictContains g.vertices e.2 = true) →
      (minPathLoop g pq visited).isSome = true := by
  intro pq visited
  induction pq, visited using minPathLoop.induct g with
  | case1 pq visited hq =>
      intro _
      rw [minPathLoop_empty _ _ _ hq]
      rfl
  | case2 pq visited d vtx pq' hq hfin ih =>
      intro hpq
      rw [minPathLoop_stale _ _ _ _ _ _ hq hfin]
      apply ih
      intro e he
      exact hpq e ((pqDequeue_subset hq).2 e he)
  | case3 pq visited d vtx pq' hq hfin hv =>
      intro hpq
      have hc := hpq (d, vtx) (pqDequeue_subset hq).1
      unfold dictContains at hc
      rw [hv] at hc
      simp at hc
  | case4 pq visited d vtx pq' hq hfin v hv he =>
      intro hpq
      have hes := adjEntries_isSome d v.adj_dict
        (fun q hqm => hwt (vtx, v) (dictLookup_some_mem hv) q hqm)
      rw [he] at hes
      simp at hes
  | case5 pq visited d vtx pq' hq hfin v hv entries he ih =>
      intro hpq
      rw [minPathLoop_step _ _ _ _ _ _ _ _ hq hfin hv he]
      apply ih
      intro e hemem
      rcases List.mem_append.mp hemem with h1 | h1
      · exact hpq e ((pqDequeue_subset hq).2 e h1)
      · obtain ⟨q, hqm, he2⟩ := adjEntries_mem he e h1
        rw [he2]
        exact hcl (vtx, v) (dictLookup_some_mem hv) q hqm

/-- Claim C9: every search runs to completion — with an adjacency-closed
graph (and weights present when the graph is weighted), DFS terminates
with a boolean (despite re-pushing visited vertices), BFS terminates with
a result (despite duplicate enqueues), and the min_path loop terminates
(despite unconditional re-enqueues), so `min_path` returns successfully. -/
theorem claim_C9_searches_terminate (g : DirectedGraph α) (s t : String)
    (hcl : adjClosed g) (hwt : g.weighted = true → weightsPresent g)
    (hs : vertex_exists g s = true) (ht : vertex_exists g t = true) :
    (∃ b, depth_first_search g s t = Except.ok b) ∧
    (∃ r, breadth_first_search g s none = Except.ok r) ∧
    (g.weighted = true → min_path g s = Except.ok ()) := by
  have hs' : dictContains g.vertices s = true := hs
  have ht' : dictContains g.vertices t = true := ht
  have hsF : ¬(dictContains g.vertices s = false) := by simp [hs']
  have htF : ¬(dictContains g.vertices t = false) := by simp [ht']
  have hstack : ∀ x ∈ [s], dictContains g.vertices x = true := by
    intro x hx
    rcases List.mem_singleton.mp hx with rfl
    exact hs'
  refine ⟨?_, ?_, ?_⟩
  · have hsome := dfsLoop_isSome g t hcl [s] [] hstack
    cases hloop : dfsLoop g t [s] [] with
    | none =>
        rw [hloop] at hsome
        simp at hsome
    | some b =>
        refine ⟨b, ?_⟩
        unfold depth_first_search
        rw [if_neg hsF, if_neg htF]
        simp only [hloop]
  · have hsome := bfsLoop_isSome g none hcl [s] [] false hstack
    cases hloop : bfsLoop g none [s] [] false with
    | none =>
        rw [hloop] at hsome
        simp at hsome
    | some p =>
        obtain ⟨V, fl⟩ := p
        unfold breadth_first_search
        rw [if_neg hsF, if_neg (by simp [pyTruthyStr])]
        simp only [hloop]
        rw [if_neg (by simp [pyTruthyStr])]
        exact ⟨BfsResult.plain V, rfl⟩
  · intro hw
    have hwF : ¬(g.weighted = false) := by simp [hw]
    have hpq : ∀ e ∈ [((0 : Int), s)], dictContains g.vertices e.2 = true := by
      intro e he
      rcases List.mem_singleton.mp he with rfl
      exact hs'
    have hsome := minPathLoop_isSome g hcl (hwt hw) [((0 : Int), s)] [] hpq
    cases hloop : minPathLoop g [((0 : Int), s)] [] with
    | none =>
        rw [hloop] at hsome
        simp at hsome
    | some visited =>
        unfold min_path
        rw [if_neg hwF, if_neg hsF]
        simp only [hloop]

theorem claim_C2_witness :
    (adjClosed chainU ∧ vertex_exists chainU "A" = true ∧
      vertex_exists chainU "C" = true) ∧
    (depth_first_search chainU "A" "C" = Except.ok true ↔
      Reachable chainU "A" "C") :=
  ⟨⟨by decide, by decide, by decide⟩,
    claim_C2_dfs_iff_reachable chainU "A" "C" (by decide) (by decide)
      (by decide)⟩

theorem claim_C3_witness :
    (adjClosed chainU ∧ vertex_exists chainU "A" = true) ∧
    (∃ l, breadth_first_search chainU "A" none =
        Except.ok (BfsResult.plain l) ∧
      ∀ x, x ∈ l ↔ Reachable chainU "A" x) :=
  ⟨⟨by decide, by decide⟩,
    claim_C3_bfs_reachable_set chainU "A" (by decide) (by decide)⟩

theorem claim_C4_witness :
    remove_vertex chainU "Z" = Except.error GraphErr.notFound ∧
    (∃ g', remove_vertex chainU "B" = Except.ok g' ∧
      g'.size = chainU.size - 1 ∧
      vertex_exists g' "B" = false ∧
      (∀ u, edge_exists g' u "B" = false) ∧
      (∀ u, u ≠ "B" → dictLookup g'.vertices u =
        (dictLookup chainU.vertices u).map (removeInbound "B"))) :=
  ⟨(claim_C4_remove_vertex chainU "Z").1 (by decide),
    (claim_C4_remove_vertex chainU "B").2 (by decide)⟩

theorem claim_C5_witness :
    ((add_vertex scenarioW "A" 9).size = scenarioW.size ∧
      dictLookup (add_vertex scenarioW "A" 9).vertices "A" =
        some ⟨"A", 9, [("B", some 1), ("C", some 5)]⟩ ∧
      (∀ u, u ≠ "A" →
        dictLookup (add_vertex scenarioW "A" 9).vertices u =
          dictLookup scenarioW.vertices u)) ∧
    ((add_vertex scenarioW "Z" 9).size = scenarioW.size + 1 ∧
      dictLookup (add_vertex scenarioW "Z" 9).vertices "Z" =
        some ⟨"Z", 9, []⟩ ∧
      (∀ u, u ≠ "Z" →
        dictLookup (add_vertex scenarioW "Z" 9).vertices u =
          dictLookup scenarioW.vertices u)) :=
  ⟨(claim_C5_add_vertex scenarioW "A" 9).1
      ⟨"A", 0, [("B", some 1), ("C", some 5)]⟩ (by decide),
    (claim_C5_add_vertex scenarioW "Z" 9).2 (by decide)⟩

theorem claim_C6_witness :
    add_edge chainUAC "A" "C" (some 7) = Except.ok chainUAC :=
  claim_C6_add_edge_idempotent chainU chainUAC "A" "C" none (some 7) (by rfl)

theorem claim_C7_witness :
    add_edge scenarioW "B" "A" none =
      Except.error GraphErr.invalidArgument ∧
    add_edge scenarioW "B" "A" (some 0) =
      Except.error GraphErr.invalidArgument :=
  claim_C7_weighted_edge_needs_weight scenarioW "B" "A" (by decide)
    (by decide) (by decide) (by decide)

theorem claim_C8_amended_witness :
    bfs_no_visited_enqueue diamondU "A" = some true ∧ (true : Bool) = true := by
  have h : bfs_no_visited_enqueue diamondU "A" = some true := by
    simp [bfs_no_visited_enqueue, bfsLoopAudit, setAdd, dictContains,
      dictLookup, diamondU]
  exact ⟨h, claim_C8_amended_no_visited_enqueue diamondU "A" true h⟩

theorem claim_C9_witness :
    (∃ b, depth_first_search scenarioW "A" "C" = Except.ok b) ∧
    (∃ r, breadth_first_search scenarioW "A" none = Except.ok r) ∧
    (scenarioW.weighted = true → min_path scenarioW "A" = Except.ok ()) :=
  claim_C9_searches_terminate scenarioW "A" "C" (by decide)
    (fun _ => by decide) (by decide) (by decide)

theorem claim_C10_witness :
    breadth_first_search chainU "A" (some "") =
      breadth_first_search chainU "A" none ∧
    (∀ r, breadth_first_search chainU "A" (some "") = Except.ok r →
      ∃ l, r = BfsResult.plain l) :=
  claim_C10_bfs_falsy_target chainU "A"

end DirectedMap
